import Mathlib

/-!
Verification of the synchronization and retention engine of an
incremental versioned backup tool (`src/backup.rs`).

The Rust source is shallowly embedded: strings become `List Char`,
`u64`/`u32` values become `Nat` (with explicit range bounds where the
Rust code checks for overflow), fallible code returns `Option` or
`Except`, and the imperative loops of the reconciler become pure
functions over lists.  Each definition mirrors one function or loop of
`src/backup.rs`; the theorems at the end of the file settle the claims
about the engine.
-/

namespace AzureBlobBackup

/-- Rust `FileType` from `backup.rs` (enum with four variants). -/
inductive FileType where
  | Regular
  | Symlink
  | Folder
  | Deleted
deriving DecidableEq, BEq

/-- Rust `FileType::parse` from `backup.rs`: exact, case-sensitive tokens. -/
def FileType.parse (raw : List Char) : Option FileType :=
  if raw = "Regular".toList then some .Regular
  else if raw = "Symlink".toList then some .Symlink
  else if raw = "Folder".toList then some .Folder
  else if raw = "Deleted".toList then some .Deleted
  else none

/-- Rust `impl Display for FileType` from `backup.rs`. -/
def FileType.display : FileType → List Char
  | .Regular => "Regular".toList
  | .Symlink => "Symlink".toList
  | .Folder => "Folder".toList
  | .Deleted => "Deleted".toList

/-- Rust `struct Version` from `backup.rs`.  `mod_time`, `upload_time` and
`size` are `u64` in the source, `permissions`, `owner` and `group` are
`u32`; here all are `Nat`, and the theorems about the codec carry the
corresponding range bounds explicitly. -/
structure Version where
  mod_time : Nat
  upload_time : Nat
  permissions : Nat
  size : Nat
  file_type : FileType
  owner : Nat
  group : Nat
deriving DecidableEq

instance : Inhabited Version := ⟨⟨0, 0, 0, 0, .Regular, 0, 0⟩⟩

/-- Rust `impl PartialEq for Version` from `backup.rs`: content equality,
comparing every field except `upload_time`. -/
def Version.contentEq (a b : Version) : Bool :=
  a.mod_time == b.mod_time && a.permissions == b.permissions
    && a.size == b.size && a.file_type == b.file_type
    && a.owner == b.owner && a.group == b.group

/-! ### Decimal / octal rendering (Rust `format!("{}")` and `format!("{:o}")`) -/

/-- The digit characters of `n` in the given base, most significant
first, as produced by Rust's unsigned `Display`/`Octal` formatting:
no sign, no leading zeros, and `0` rendered as `"0"`. -/
def natToChars (base n : Nat) : List Char :=
  if n = 0 then ['0'] else ((Nat.digits base n).map Nat.digitChar).reverse

/-! ### Rust unsigned-integer parsing (`str::parse` / `from_str_radix`) -/

/-- Rust `char::to_digit(radix)`: `0`-`9`, then letters for digit
values 10 and above; the digit value must be below the radix. -/
def charToDigit (c : Char) (radix : Nat) : Option Nat :=
  let d : Option Nat :=
    if 48 ≤ c.toNat ∧ c.toNat ≤ 57 then some (c.toNat - 48)
    else if 97 ≤ c.toNat ∧ c.toNat ≤ 122 then some (c.toNat - 87)
    else if 65 ≤ c.toNat ∧ c.toNat ≤ 90 then some (c.toNat - 55)
    else none
  match d with
  | some d => if d < radix then some d else none
  | none => none

/-- Rust strips one optional leading `+` from an unsigned numeral
(a leading `-` is not stripped for unsigned types and fails as a
non-digit). -/
def stripPlus (s : List Char) : List Char :=
  if s.head? == some '+' then s.tail else s

/-- The accumulation loop of Rust's `from_str_radix`: left to right,
`acc = acc * radix + digit`, failing on a non-digit or when a checked
multiply/add would reach `bound` (= `2^64` or `2^32`). -/
def parseDigitsAcc (radix bound : Nat) : List Char → Nat → Option Nat
  | [], acc => some acc
  | c :: rest, acc =>
    match charToDigit c radix with
    | none => none
    | some d =>
      if acc * radix + d < bound then parseDigitsAcc radix bound rest (acc * radix + d)
      else none

/-- Rust `u64::from_str_radix(s, radix)` (resp. `u32`), as used by
`str::parse::<u64>` (radix 10) and `u32::from_str_radix(_, 8)`:
optional `+`, then a non-empty run of digits of the radix, with
overflow checked against `bound`. -/
def rustParseUint (radix bound : Nat) (s : List Char) : Option Nat :=
  if (stripPlus s).isEmpty then none else parseDigitsAcc radix bound (stripPlus s) 0

/-! ### Splitting on a character (Rust `str::split('-')` / `rfind('/')`) -/

/-- Rust `str::split(sep)` collected into a vector: the empty string
yields one empty field, and every occurrence of `sep` starts a new
field. -/
def splitOnChar (sep : Char) : List Char → List (List Char)
  | [] => [[]]
  | c :: rest =>
    match splitOnChar sep rest with
    | [] => [[]]
    | h :: t => if c = sep then [] :: h :: t else (c :: h) :: t

/-- Rust `str::rfind(c)`: index of the last occurrence of `c`. -/
def rfindChar (c : Char) : List Char → Option Nat
  | [] => none
  | x :: xs =>
    match rfindChar c xs with
    | some i => some (i + 1)
    | none => if x = c then some 0 else none

/-! ### The version codec -/

/-- Rust `Version::serialize` from `backup.rs`:
`format!("{}-{}-{:o}-{}-{}-{}-{}", mod_time, upload_time, permissions,
size, file_type, owner, group)` — seven `-`-joined fields,
`permissions` in octal. -/
def Version.serialize (v : Version) : List Char :=
  natToChars 10 v.mod_time ++ '-' :: natToChars 10 v.upload_time
    ++ '-' :: natToChars 8 v.permissions ++ '-' :: natToChars 10 v.size
    ++ '-' :: v.file_type.display ++ '-' :: natToChars 10 v.owner
    ++ '-' :: natToChars 10 v.group

/-- Rust `impl TryFrom<&str> for Version` from `backup.rs`: split on `-`,
require exactly seven fields, parse each field (`permissions` in
base 8, the numeric `u64`/`u32` fields with their overflow bounds,
`file_type` via `FileType::parse`). -/
def Version.tryFromChars (s : List Char) : Option Version :=
  match splitOnChar '-' s with
  | [c0, c1, c2, c3, c4, c5, c6] =>
    match rustParseUint 10 (2 ^ 64) c0, rustParseUint 10 (2 ^ 64) c1,
        rustParseUint 8 (2 ^ 32) c2, rustParseUint 10 (2 ^ 64) c3,
        FileType.parse c4, rustParseUint 10 (2 ^ 32) c5,
        rustParseUint 10 (2 ^ 32) c6 with
    | some m, some u, some p, some sz, some ft, some o, some g =>
      some ⟨m, u, p, sz, ft, o, g⟩
    | _, _, _, _, _, _, _ => none
  | _ => none

/-! ### Helper lemmas for the codec round trip -/

/-- Big-endian digit value: the accumulator semantics of the
`from_str_radix` loop on already-validated digit values. -/
def valBE (radix : Nat) : Nat → List Nat → Nat
  | acc, [] => acc
  | acc, d :: ds => valBE radix (acc * radix + d) ds

/-! ### Remote indexer (`create_remote_index`, backup.rs lines 131-169)

For each listed blob name the source prepends `/`, looks for the last
`/` (`rfind`), rejects a missing delimiter or a trailing slash, parses
the suffix as a version and takes the prefix as the logical path. -/

/-- The three failure modes of processing one blob name: the
`"Malformed remote path"` error, the
`"Malformed remote path (trailing slash)"` error, and a version parse
failure propagated by `?`. -/
inductive RemoteIndexError where
  | noDelimiter
  | trailingSlash
  | badVersion
deriving DecidableEq

instance {ε α : Type} [DecidableEq ε] [DecidableEq α] : DecidableEq (Except ε α)
  | .error a, .error b => decidable_of_iff (a = b) (by simp)
  | .error _, .ok _ => isFalse (by simp)
  | .ok _, .error _ => isFalse (by simp)
  | .ok a, .ok b => decidable_of_iff (a = b) (by simp)

/-- Processing of a single blob name by `create_remote_index`:
returns the `(logical_path, version)` pair recorded in the remote
index, or the error aborting the indexing. -/
def processBlobName (name : List Char) : Except RemoteIndexError (List Char × Version) :=
  let path := '/' :: name
  match rfindChar '/' path with
  | none => .error .noDelimiter
  | some last_delim =>
    if last_delim + 1 ≥ path.length then .error .trailingSlash
    else
      match Version.tryFromChars (path.drop (last_delim + 1)) with
      | none => .error .badVersion
      | some version => .ok (path.take last_delim, version)

/-! ### Uploader block arithmetic (`upload_file`, backup.rs lines 191-235) -/

/-- Source `block_size = std::cmp::max(4 << 20, len / 25000)` — note the
integer (floor) division of the source. -/
def blockSize (len : Nat) : Nat := max (4 <<< 20) (len / 25000)

/-- Source `num_blocks = len / block_size`, plus one more partially filled
block when `len % block_size != 0`. -/
def numBlocks (len : Nat) : Nat :=
  len / blockSize len + (if len % blockSize len ≠ 0 then 1 else 0)

/-! ### Reconciler upload phase (`sync_remote_index`, backup.rs lines 274-321) -/

/-- One iteration of the upload loop for a local path holding the
single local version `local_version`; `remote_entry` is the remote
sequence for that path (`none` when absent).  `update` starts `true`
and is cleared when some remote version equals the local one by
content, or is younger than it by less than `min_update_age`.
Returns the remote sequence afterwards and whether the upload ran. -/
def uploadPhaseEntry (local_version : Version) (remote_entry : Option (List Version))
    (min_update_age : Nat) : List Version × Bool :=
  match remote_entry with
  | some versions =>
    if versions.any (fun version =>
        Version.contentEq version local_version
          || (decide (local_version.upload_time > version.upload_time)
              && decide (local_version.upload_time - version.upload_time < min_update_age))) then
      (versions, false)
    else (versions ++ [local_version], true)
  | none => ([local_version], true)

/-! ### Reconciler tombstone phase (`sync_remote_index`, backup.rs lines 328-377) -/

/-- The scan for the newest remote version: starts at `versions[0]`
and replaces it whenever a strictly larger `upload_time` is found. -/
def newestVersion (v0 : Version) (rest : List Version) : Version :=
  rest.foldl (fun version w => if w.upload_time > version.upload_time then w else version) v0

/-- The synthesized tombstone: `size`, `mod_time` zeroed,
`upload_time` set to `now`, `file_type` set to `Deleted`;
`permissions`, `owner` and `group` are carried over. -/
def tombstoneOf (newest : Version) (now : Nat) : Version :=
  { newest with size := 0, mod_time := 0, upload_time := now, file_type := .Deleted }

/-- One iteration of the tombstone loop for a remote path:
`locallyPresent` states whether the path is in the local index.  An
empty version list is logged and skipped; otherwise, if the path is
absent locally and the newest version is not in the future and at
least `min_update_age` old, a tombstone is uploaded and appended.
Returns the sequence afterwards and whether a tombstone was written. -/
def tombstonePhaseEntry (locallyPresent : Bool) (now min_update_age : Nat)
    (versions : List Version) : List Version × Bool :=
  match versions with
  | [] => ([], false)
  | v0 :: rest =>
    if locallyPresent then (v0 :: rest, false)
    else if now < (newestVersion v0 rest).upload_time ∨
        now - (newestVersion v0 rest).upload_time < min_update_age then
      (v0 :: rest, false)
    else ((v0 :: rest) ++ [tombstoneOf (newestVersion v0 rest) now], true)

/-! ### Reconciler retention phase (`sync_remote_index`, backup.rs lines 379-522)

The imperative loop is modelled per remote path.  `bucket.versions`
receives the version indices `0, 1, 2, …` in increasing order (the
outer loop runs over the sorted sequence), so it never holds
duplicates; the per-bucket decrement loop therefore decrements a
version index at most once per bucket, which the counting model below
reflects with `countP` over the bucket list. -/

/-- Source `let day = 60 * 60 * 24` of `sync_remote_index`. -/
def day : Nat := 60 * 60 * 24

/-- Source `let week = day * 7`. -/
def week : Nat := day * 7

/-- Source `let month = week * 4`. -/
def month : Nat := week * 4

/-- Rust `struct VersionBucket` (without its `versions` accumulator, which
the model recomputes by filtering).  `stop` is the source's `end`
field (`end` is reserved in Lean). -/
structure VersionBucket where
  start : Nat
  stop : Nat
deriving DecidableEq

/-- Bucket construction: `num_daily` daily buckets, then `num_weekly`
weekly, then `num_monthly` monthly, bucket `i` spanning
`[now - (i+1)*width, now - i*width]`.  (The source subtracts in `u64`;
`Nat` subtraction matches it whenever `now` is at least the width of
the oldest bucket, and no theorem below depends on the numeric value
of a bucket boundary.) -/
def mkBuckets (now num_daily num_weekly num_monthly : Nat) : List VersionBucket :=
  ((List.range num_daily).map fun i => ⟨now - (i + 1) * day, now - i * day⟩)
    ++ ((List.range num_weekly).map fun i => ⟨now - (i + 1) * week, now - i * week⟩)
    ++ ((List.range num_monthly).map fun i => ⟨now - (i + 1) * month, now - i * month⟩)

instance : DecidableRel (fun a b : Version => a.upload_time ≤ b.upload_time) :=
  fun a b => Nat.decLe a.upload_time b.upload_time

/-- The sort at the head of the retention loop body:
`remote_entry.1.sort_by(|a, b| a.upload_time.partial_cmp(…))` — a
stable sort ascending by `upload_time`; the insertion sort used here
computes the same (unique) stable result. -/
def sortByUploadTime (versions : List Version) : List Version :=
  List.insertionSort (fun a b => a.upload_time ≤ b.upload_time) versions

/-- Coverage interval start of version `i` of the sorted sequence:
its `upload_time`. -/
def covStart (vs : List Version) (i : Nat) : Nat := (vs.getD i default).upload_time

/-- Coverage interval end of version `i`: the next version's
`upload_time` (`now` for the last version), minus half a day, but at
least `start + 1`.  (The source subtracts `day / 2` in `u64`, which
would panic in debug builds or wrap in release builds when the raw end
is below `day / 2 = 43200`; the `Nat` subtraction here agrees with the
source exactly when the raw end is at least 43200.  Every concrete
retention input in the theorems below has all of its raw coverage ends
at or above 43200, so model and source agree there; the quantified
retention theorems do not depend on the values of the coverage
bounds.) -/
def covEnd (now : Nat) (vs : List Version) (i : Nat) : Nat :=
  max ((if i + 1 < vs.length then (vs.getD (i + 1) default).upload_time else now) - day / 2)
    (covStart vs i + 1)

/-- Source test `bucket.start < bucketed.end && bucket.end >= bucketed.start` —
the intersection test adding version `i` to a bucket (and incrementing
its `bucket_count`). -/
def inBucket (now : Nat) (vs : List Version) (b : VersionBucket) (i : Nat) : Bool :=
  decide (b.start < covEnd now vs i) && decide (b.stop ≥ covStart vs i)

/-- The content of `bucket.versions` after the bucketing loop: the
version indices intersecting the bucket, in increasing order. -/
def bucketVersions (now : Nat) (vs : List Version) (b : VersionBucket) : List Nat :=
  (List.range vs.length).filter (fun i => inBucket now vs b i)

/-- Value of `bucket_count` of version `i` after the bucketing loop: one
increment per intersecting bucket. -/
def initCount (now : Nat) (buckets : List VersionBucket) (vs : List Version) (i : Nat) : Nat :=
  buckets.countP (fun b => inBucket now vs b i)

/-- The `find the oldest upload time` scan over `bucket.versions`
positions `1..`, tracking the position `oldest_idx` of the minimum
(strict `<`, so the first minimum wins). -/
def findOldestGo (vs : List Version) : List Nat → Nat → Nat → Nat → Nat
  | [], _, _, oldest_idx => oldest_idx
  | m :: rest, i, oldest, oldest_idx =>
    if (vs.getD m default).upload_time < oldest then
      findOldestGo vs rest (i + 1) (vs.getD m default).upload_time i
    else
      findOldestGo vs rest (i + 1) oldest oldest_idx

/-- Source `oldest_idx` for a bucket's member list: the position (not the
version index!) of the first minimal `upload_time`. -/
def findOldestIdx (vs : List Version) (members : List Nat) : Nat :=
  match members with
  | [] => 0
  | m0 :: rest => findOldestGo vs rest 1 (vs.getD m0 default).upload_time 0

/-- Whether the per-bucket eviction loop decrements version `j` for
bucket `b`: the bucket holds more than one member, `j` is a member,
and `j` (a version index) differs from `oldest_idx` (a position) —
the source's `idx != &oldest_idx` comparison. -/
def decFlag (now : Nat) (vs : List Version) (b : VersionBucket) (j : Nat) : Bool :=
  let ms := bucketVersions now vs b
  decide (1 < ms.length) && ms.contains j && decide (j ≠ findOldestIdx vs ms)

/-- Total number of decrements applied to `bucket_count` of version
`j`: at most one per bucket (member lists are duplicate-free). -/
def decCount (now : Nat) (buckets : List VersionBucket) (vs : List Version) (j : Nat) : Nat :=
  buckets.countP (fun b => decFlag now vs b j)

/-- Value of `bucket_count` of version `j` after the eviction loop (`Nat`
subtraction; the no-underflow theorem below shows it is exact). -/
def finalCount (now : Nat) (buckets : List VersionBucket) (vs : List Version) (j : Nat) : Nat :=
  initCount now buckets vs j - decCount now buckets vs j

/-- Indices deleted from the remote store: final `bucket_count` zero. -/
def deletedIdxs (now : Nat) (buckets : List VersionBucket) (vs : List Version) : List Nat :=
  (List.range vs.length).filter (fun j => decide (finalCount now buckets vs j = 0))

/-- Indices surviving the retention phase. -/
def survivorIdxs (now : Nat) (buckets : List VersionBucket) (vs : List Version) : List Nat :=
  (List.range vs.length).filter (fun j => decide (finalCount now buckets vs j ≠ 0))

/-- The retention loop body for one remote path: sorts the sequence,
computes bucket membership and keep counts, and deletes from the
remote store every version whose final count is zero.  Returns the
in-memory sequence after the body (the loop sorts it but never removes
from it) together with the versions deleted from the remote store. -/
def retentionEntry (now : Nat) (buckets : List VersionBucket) (versions : List Version) :
    List Version × List Version :=
  let vs := sortByUploadTime versions
  (vs, (deletedIdxs now buckets vs).map (fun i => vs.getD i default))

/-- Survivor indices of the full loop body (sort, then retention). -/
def retentionSurvivors (now : Nat) (buckets : List VersionBucket)
    (versions : List Version) : List Nat :=
  survivorIdxs now buckets (sortByUploadTime versions)

/-- Proof device (not a source function): the at most one member of a
bucket whose keep count the eviction loop does not decrement — the
sole member when the bucket holds at most one, otherwise the member
whose version index happens to equal the `oldest_idx` position, if
any. -/
def sparedOf (now : Nat) (vs : List Version) (b : VersionBucket) : Option Nat :=
  if 1 < (bucketVersions now vs b).length then
    (if (bucketVersions now vs b).contains (findOldestIdx vs (bucketVersions now vs b)) then
      some (findOldestIdx vs (bucketVersions now vs b))
    else none)
  else (bucketVersions now vs b).head?

/-! ## Theorems -/

/-! ### Codec lemmas -/

theorem valBE_le (radix : Nat) (hr : 1 ≤ radix) :
    ∀ (ds : List Nat) (acc : Nat), acc ≤ valBE radix acc ds := by
  intro ds
  induction ds with
  | nil => intro acc; exact Nat.le_refl _
  | cons d ds ih =>
    intro acc
    calc acc ≤ acc * radix + d := by
          have : acc * 1 ≤ acc * radix := Nat.mul_le_mul_left acc hr
          omega
      _ ≤ valBE radix (acc * radix + d) ds := ih _

theorem valBE_append (radix : Nat) :
    ∀ (xs ys : List Nat) (acc : Nat),
      valBE radix acc (xs ++ ys) = valBE radix (valBE radix acc xs) ys := by
  intro xs
  induction xs with
  | nil => intro ys acc; rfl
  | cons d xs ih => intro ys acc; simpa [valBE] using ih ys (acc * radix + d)

theorem valBE_reverse (base : Nat) :
    ∀ (L : List Nat) (acc : Nat),
      valBE base acc L.reverse = acc * base ^ L.length + Nat.ofDigits base L := by
  intro L
  induction L with
  | nil => intro acc; simp [valBE, Nat.ofDigits_nil]
  | cons d L ih =>
    intro acc
    rw [List.reverse_cons, valBE_append, ih]
    simp only [valBE, Nat.ofDigits_cons, List.length_cons]
    ring

theorem charToDigit_digitChar (radix d : Nat) (hd : d < radix) (hr : radix ≤ 10) :
    charToDigit (Nat.digitChar d) radix = some d := by
  have h10 : d < 10 := Nat.lt_of_lt_of_le hd hr
  interval_cases d <;>
    simp [charToDigit, Nat.digitChar, hd]

theorem digitChar_toNat_of_lt (d : Nat) (h10 : d < 10) :
    48 ≤ (Nat.digitChar d).toNat ∧ (Nat.digitChar d).toNat ≤ 57 := by
  interval_cases d <;> simp [Nat.digitChar]

theorem parseDigitsAcc_map (radix bound : Nat) (hr : 1 ≤ radix) (hrd : radix ≤ 10) :
    ∀ (ds : List Nat) (acc : Nat), (∀ d ∈ ds, d < radix) →
      valBE radix acc ds < bound →
      parseDigitsAcc radix bound (ds.map Nat.digitChar) acc = some (valBE radix acc ds) := by
  intro ds
  induction ds with
  | nil => intro acc _ _; rfl
  | cons d ds ih =>
    intro acc hdig hb
    have hd : d < radix := hdig d (List.mem_cons_self d ds)
    have hstep : valBE radix acc (d :: ds) = valBE radix (acc * radix + d) ds := rfl
    have hle : acc * radix + d ≤ valBE radix (acc * radix + d) ds := valBE_le radix hr ds _
    rw [hstep] at hb
    simp only [List.map_cons, parseDigitsAcc, charToDigit_digitChar radix d hd hrd]
    rw [if_pos (Nat.lt_of_le_of_lt hle hb)]
    exact (ih (acc * radix + d) (fun x hx => hdig x (List.mem_cons_of_mem d hx)) hb).trans
      (congrArg some hstep.symm)

theorem natToChars_mem_digit (base n : Nat) (hb : 1 < base) (hb10 : base ≤ 10) :
    ∀ c ∈ natToChars base n, 48 ≤ c.toNat ∧ c.toNat ≤ 57 := by
  intro c hc
  unfold natToChars at hc
  by_cases hn : n = 0
  · rw [if_pos hn] at hc
    simp only [List.mem_singleton] at hc
    subst hc; exact ⟨by decide, by decide⟩
  · rw [if_neg hn] at hc
    rw [List.mem_reverse, List.mem_map] at hc
    obtain ⟨d, hd, rfl⟩ := hc
    exact digitChar_toNat_of_lt d (Nat.lt_of_lt_of_le (Nat.digits_lt_base hb hd) hb10)

theorem stripPlus_of_no_plus (s : List Char) (h : ∀ c ∈ s, c ≠ '+') :
    stripPlus s = s := by
  cases s with
  | nil => rfl
  | cons c rest =>
    have : c ≠ '+' := h c (List.mem_cons_self c rest)
    simp [stripPlus, this]

theorem natToChars_ne_nil (base n : Nat) :
    natToChars base n ≠ [] := by
  unfold natToChars
  by_cases hn : n = 0
  · rw [if_pos hn]; simp
  · rw [if_neg hn]
    simp only [ne_eq, List.reverse_eq_nil_iff, List.map_eq_nil_iff]
    exact Nat.digits_ne_nil_iff_ne_zero.mpr hn

theorem rustParseUint_natToChars (base bound n : Nat) (hb : 1 < base)
    (hb10 : base ≤ 10) (hn : n < bound) :
    rustParseUint base bound (natToChars base n) = some n := by
  have hdig := natToChars_mem_digit base n hb hb10
  have hplus : ∀ c ∈ natToChars base n, c ≠ '+' := by
    intro c hc hcp
    have h48 := hdig c hc
    rw [hcp] at h48
    exact absurd h48 (by decide)
  have hempty : (natToChars base n).isEmpty = false := by
    cases h : natToChars base n with
    | nil => exact absurd h (natToChars_ne_nil base n)
    | cons a t => rfl
  unfold rustParseUint
  rw [stripPlus_of_no_plus _ hplus, hempty]
  simp only [Bool.false_eq_true, if_false]
  unfold natToChars
  by_cases hzero : n = 0
  · subst hzero
    rw [if_pos rfl]
    have hb0 : (0 : Nat) < base := by omega
    have h1 : charToDigit '0' base = some 0 := by
      unfold charToDigit
      norm_num
      simp [hb0]
    simp [parseDigitsAcc, h1, hn]
  · rw [if_neg hzero]
    rw [← List.map_reverse]
    have hlt : ∀ d ∈ (Nat.digits base n).reverse, d < base := by
      intro d hd
      exact Nat.digits_lt_base hb (List.mem_reverse.mp hd)
    have hval : valBE base 0 (Nat.digits base n).reverse = n := by
      rw [valBE_reverse]
      simp [Nat.ofDigits_digits]
    rw [parseDigitsAcc_map base bound (Nat.le_of_lt hb) hb10 _ 0 hlt (by rw [hval]; exact hn)]
    rw [hval]

/-! ### Split lemmas -/

theorem splitOnChar_cons (sep c : Char) (rest : List Char) :
    splitOnChar sep (c :: rest) =
      match splitOnChar sep rest with
      | [] => [[]]
      | h :: t => if c = sep then [] :: h :: t else (c :: h) :: t := rfl

theorem splitOnChar_ne_nil (sep : Char) : ∀ xs : List Char, splitOnChar sep xs ≠ [] := by
  intro xs
  induction xs with
  | nil => simp [splitOnChar]
  | cons c rest ih =>
    rw [splitOnChar_cons]
    cases h : splitOnChar sep rest with
    | nil => exact absurd h ih
    | cons a t =>
      by_cases hc : c = sep <;> simp [hc]

theorem splitOnChar_sepFree (sep : Char) :
    ∀ xs : List Char, sep ∉ xs → splitOnChar sep xs = [xs] := by
  intro xs
  induction xs with
  | nil => intro _; rfl
  | cons c rest ih =>
    intro h
    have hc : c ≠ sep := fun hceq => h (hceq ▸ List.mem_cons_self c rest)
    have hrest : sep ∉ rest := fun hm => h (List.mem_cons_of_mem c hm)
    rw [splitOnChar_cons, ih hrest]
    simp [hc]

theorem splitOnChar_append (sep : Char) :
    ∀ xs ys : List Char, sep ∉ xs →
      splitOnChar sep (xs ++ sep :: ys) = xs :: splitOnChar sep ys := by
  intro xs
  induction xs with
  | nil =>
    intro ys _
    simp only [List.nil_append]
    rw [splitOnChar_cons]
    cases h : splitOnChar sep ys with
    | nil => exact absurd h (splitOnChar_ne_nil sep ys)
    | cons a t => simp
  | cons x xs ih =>
    intro ys h
    have hx : x ≠ sep := fun hceq => h (hceq ▸ List.mem_cons_self x xs)
    have hxs : sep ∉ xs := fun hm => h (List.mem_cons_of_mem x hm)
    simp only [List.cons_append]
    rw [splitOnChar_cons, ih ys hxs]
    simp [hx]

theorem natToChars_no_dash (base n : Nat) (hb : 1 < base) (hb10 : base ≤ 10) :
    '-' ∉ natToChars base n := by
  intro hm
  have h45 := natToChars_mem_digit base n hb hb10 '-' hm
  exact absurd h45 (by decide)

theorem display_no_dash (ft : FileType) : '-' ∉ ft.display := by
  cases ft <;> decide

theorem FileType.parse_display (ft : FileType) : FileType.parse ft.display = some ft := by
  cases ft <;> decide

theorem tryFromChars_serialize (v : Version)
    (h1 : v.mod_time < 2 ^ 64) (h2 : v.upload_time < 2 ^ 64)
    (h3 : v.permissions < 2 ^ 32) (h4 : v.size < 2 ^ 64)
    (h5 : v.owner < 2 ^ 32) (h6 : v.group < 2 ^ 32) :
    Version.tryFromChars (Version.serialize v) = some v := by
  have d10 : (1 : Nat) < 10 := by norm_num
  have d10' : (10 : Nat) ≤ 10 := le_refl _
  have d8 : (1 : Nat) < 8 := by norm_num
  have d8' : (8 : Nat) ≤ 10 := by norm_num
  unfold Version.serialize Version.tryFromChars
  simp only [List.append_assoc, List.cons_append]
  rw [splitOnChar_append '-' _ _ (natToChars_no_dash 10 v.mod_time d10 d10'),
    splitOnChar_append '-' _ _ (natToChars_no_dash 10 v.upload_time d10 d10'),
    splitOnChar_append '-' _ _ (natToChars_no_dash 8 v.permissions d8 d8'),
    splitOnChar_append '-' _ _ (natToChars_no_dash 10 v.size d10 d10'),
    splitOnChar_append '-' _ _ (display_no_dash v.file_type),
    splitOnChar_append '-' _ _ (natToChars_no_dash 10 v.owner d10 d10'),
    splitOnChar_sepFree '-' _ (natToChars_no_dash 10 v.group d10 d10')]
  simp only [rustParseUint_natToChars 10 (2 ^ 64) v.mod_time d10 d10' h1,
    rustParseUint_natToChars 10 (2 ^ 64) v.upload_time d10 d10' h2,
    rustParseUint_natToChars 8 (2 ^ 32) v.permissions d8 d8' h3,
    rustParseUint_natToChars 10 (2 ^ 64) v.size d10 d10' h4,
    FileType.parse_display v.file_type,
    rustParseUint_natToChars 10 (2 ^ 32) v.owner d10 d10' h5,
    rustParseUint_natToChars 10 (2 ^ 32) v.group d10 d10' h6]

/-! ### Tombstone-phase lemmas -/

theorem newestVersion_step (v0 x : Version) (ws : List Version) :
    newestVersion v0 (x :: ws)
      = newestVersion (if x.upload_time > v0.upload_time then x else v0) ws := rfl

theorem newestVersion_mem (v0 : Version) (rest : List Version) :
    newestVersion v0 rest ∈ v0 :: rest := by
  induction rest generalizing v0 with
  | nil => exact List.mem_singleton.mpr rfl
  | cons w ws ih =>
    rw [newestVersion_step]
    have h := ih (if w.upload_time > v0.upload_time then w else v0)
    rw [List.mem_cons] at h
    rcases h with h | h
    · rw [h]
      by_cases hc : w.upload_time > v0.upload_time
      · rw [if_pos hc]
        exact List.mem_cons_of_mem v0 (List.mem_cons_self w ws)
      · rw [if_neg hc]
        exact List.mem_cons_self v0 (w :: ws)
    · exact List.mem_cons_of_mem v0 (List.mem_cons_of_mem w h)

theorem newestVersion_max (v0 : Version) (rest : List Version) :
    ∀ w ∈ v0 :: rest, w.upload_time ≤ (newestVersion v0 rest).upload_time := by
  induction rest generalizing v0 with
  | nil =>
    intro w hw
    rw [List.mem_singleton] at hw
    exact hw ▸ Nat.le_refl _
  | cons x ws ih =>
    intro w hw
    rw [newestVersion_step]
    have hhead := ih (if x.upload_time > v0.upload_time then x else v0)
      (if x.upload_time > v0.upload_time then x else v0) (List.mem_cons_self _ ws)
    have hv0 : v0.upload_time
        ≤ (if x.upload_time > v0.upload_time then x else v0).upload_time := by
      by_cases hc : x.upload_time > v0.upload_time
      · rw [if_pos hc]; omega
      · rw [if_neg hc]
    have hx : x.upload_time
        ≤ (if x.upload_time > v0.upload_time then x else v0).upload_time := by
      by_cases hc : x.upload_time > v0.upload_time
      · rw [if_pos hc]
      · rw [if_neg hc]; omega
    rw [List.mem_cons] at hw
    rcases hw with hw | hw
    · subst hw; exact Nat.le_trans hv0 hhead
    · rw [List.mem_cons] at hw
      rcases hw with hw | hw
      · subst hw; exact Nat.le_trans hx hhead
      · exact ih _ w (List.mem_cons_of_mem _ hw)

theorem tombstonePhaseEntry_cons (locallyPresent : Bool) (now min_update_age : Nat)
    (v0 : Version) (rest : List Version) :
    tombstonePhaseEntry locallyPresent now min_update_age (v0 :: rest) =
      if locallyPresent then (v0 :: rest, false)
      else if now < (newestVersion v0 rest).upload_time ∨
          now - (newestVersion v0 rest).upload_time < min_update_age then
        (v0 :: rest, false)
      else ((v0 :: rest) ++ [tombstoneOf (newestVersion v0 rest) now], true) := rfl

/-- C2 (counterexample): the claim requires that no tombstone is
appended when the newest remote version is already a `Deleted`
tombstone, but with the path absent locally, a single remote version
that is a `Deleted` tombstone with `upload_time = 0`, `now = 100` and
`min_update_age = 10`, the code writes another tombstone anyway. -/
theorem tombstone_for_tombstone :
    (newestVersion ⟨0, 0, 420, 0, .Deleted, 0, 0⟩ []).file_type = FileType.Deleted ∧
    (tombstonePhaseEntry false 100 10 [⟨0, 0, 420, 0, .Deleted, 0, 0⟩]).2 = true := by
  decide

/-- C2 (amended): in the tombstone phase a `Deleted` tombstone is
written for a remote path (with a non-empty version list) if and only
if the path is absent from the local index and the newest remote
version's `upload_time` is not in the future and at least
`min_update_age` seconds before `now` — with no regard to whether that
newest version is already a tombstone. -/
theorem tombstone_written_iff (locallyPresent : Bool) (now min_update_age : Nat)
    (v0 : Version) (rest : List Version) :
    (tombstonePhaseEntry locallyPresent now min_update_age (v0 :: rest)).2 = true ↔
      (locallyPresent = false ∧ (newestVersion v0 rest).upload_time ≤ now ∧
        min_update_age ≤ now - (newestVersion v0 rest).upload_time) := by
  rw [tombstonePhaseEntry_cons]
  by_cases hl : locallyPresent
  · subst hl; simp
  · rw [Bool.not_eq_true] at hl
    subst hl
    by_cases hc : now < (newestVersion v0 rest).upload_time ∨
        now - (newestVersion v0 rest).upload_time < min_update_age
    · rw [if_neg (by simp), if_pos hc]
      simp only [Bool.false_eq_true, false_iff, not_and]
      intro
      omega
    · rw [if_neg (by simp), if_neg hc]
      simp only [true_and]
      constructor
      · intro; omega
      · intro; trivial

/-- C8: whenever the tombstone phase writes a tombstone, the appended
version has `mod_time = 0`, `upload_time = now`, `size = 0`,
`file_type = Deleted`, and `permissions`/`owner`/`group` carried over
from the newest existing version — a member of the sequence whose
`upload_time` is maximal — and it is appended at the end of the
in-memory remote sequence. -/
theorem tombstone_fields (now min_update_age : Nat) (v0 : Version) (rest : List Version)
    (h : (tombstonePhaseEntry false now min_update_age (v0 :: rest)).2 = true) :
    (tombstonePhaseEntry false now min_update_age (v0 :: rest)).1 =
      (v0 :: rest) ++ [⟨0, now, (newestVersion v0 rest).permissions, 0, .Deleted,
        (newestVersion v0 rest).owner, (newestVersion v0 rest).group⟩] ∧
    newestVersion v0 rest ∈ v0 :: rest ∧
    ∀ w ∈ v0 :: rest, w.upload_time ≤ (newestVersion v0 rest).upload_time := by
  refine ⟨?_, newestVersion_mem v0 rest, newestVersion_max v0 rest⟩
  rw [tombstonePhaseEntry_cons] at h ⊢
  rw [if_neg (by simp)] at h ⊢
  by_cases hc : now < (newestVersion v0 rest).upload_time ∨
      now - (newestVersion v0 rest).upload_time < min_update_age
  · rw [if_pos hc] at h
    exact absurd h (by simp)
  · rw [if_neg hc]
    rfl

/-- Witness for `tombstone_fields` at a concrete input. -/
theorem tombstone_fields_witness :
    (tombstonePhaseEntry false 100 10 [⟨0, 50, 7, 5, .Regular, 1, 2⟩]).1 =
      [⟨0, 50, 7, 5, .Regular, 1, 2⟩] ++
        [⟨0, 100, (newestVersion ⟨0, 50, 7, 5, .Regular, 1, 2⟩ []).permissions, 0, .Deleted,
          (newestVersion ⟨0, 50, 7, 5, .Regular, 1, 2⟩ []).owner,
          (newestVersion ⟨0, 50, 7, 5, .Regular, 1, 2⟩ []).group⟩] ∧
    newestVersion ⟨0, 50, 7, 5, .Regular, 1, 2⟩ [] ∈ [⟨0, 50, 7, 5, .Regular, 1, 2⟩] ∧
    ∀ w ∈ [(⟨0, 50, 7, 5, .Regular, 1, 2⟩ : Version)],
      w.upload_time ≤ (newestVersion ⟨0, 50, 7, 5, .Regular, 1, 2⟩ []).upload_time :=
  tombstone_fields 100 10 ⟨0, 50, 7, 5, .Regular, 1, 2⟩ [] (by decide)

/-- C3: in the upload phase the file is uploaded and the local version
appended exactly when no remote version `v` equals the local version
by content equality and none satisfies
`local.upload_time > v.upload_time ∧ local.upload_time - v.upload_time
< min_update_age`; a path with no remote entry at all is always
uploaded.  The second conjunct records the append. -/
theorem upload_decision_iff (local_version : Version)
    (remote_entry : Option (List Version)) (min_update_age : Nat) :
    ((uploadPhaseEntry local_version remote_entry min_update_age).2 = true ↔
      (remote_entry = none ∨ ∃ vs, remote_entry = some vs ∧ ∀ v ∈ vs,
        ¬(Version.contentEq v local_version = true ∨
          (local_version.upload_time > v.upload_time ∧
            local_version.upload_time - v.upload_time < min_update_age)))) ∧
    (uploadPhaseEntry local_version remote_entry min_update_age).1 =
      (if (uploadPhaseEntry local_version remote_entry min_update_age).2 = true
        then remote_entry.getD [] ++ [local_version] else remote_entry.getD []) := by
  cases remote_entry with
  | none => simp [uploadPhaseEntry]
  | some vs =>
    have heq : uploadPhaseEntry local_version (some vs) min_update_age =
        if vs.any (fun version =>
            Version.contentEq version local_version
              || (decide (local_version.upload_time > version.upload_time)
                  && decide (local_version.upload_time - version.upload_time < min_update_age)))
          then (vs, false) else (vs ++ [local_version], true) := rfl
    rw [heq]
    by_cases h : vs.any (fun version =>
        Version.contentEq version local_version
          || (decide (local_version.upload_time > version.upload_time)
              && decide (local_version.upload_time - version.upload_time < min_update_age)))
    · rw [if_pos h]
      rw [List.any_eq_true] at h
      obtain ⟨v, hv, hvp⟩ := h
      simp only [Bool.or_eq_true, Bool.and_eq_true, decide_eq_true_iff] at hvp
      constructor
      · simp only [Bool.false_eq_true, false_iff, not_or]
        refine ⟨by simp, ?_⟩
        rintro ⟨vs', hvs', hall⟩
        rw [Option.some_inj] at hvs'
        subst hvs'
        rcases hvp with hvp | hvp
        · exact (hall v hv).1 hvp
        · exact (hall v hv).2 hvp
      · simp
    · rw [if_neg h]
      rw [List.any_eq_true] at h
      push_neg at h
      constructor
      · simp only [true_iff]
        refine Or.inr ⟨vs, rfl, fun v hv => ?_⟩
        have hne := h v hv
        simp only [ne_eq, Bool.or_eq_true, Bool.and_eq_true, decide_eq_true_iff] at hne
        exact hne
      · simp

/-! ### Uploader block arithmetic -/

theorem blockSize_pos (len : Nat) : 0 < blockSize len :=
  Nat.lt_of_lt_of_le (by decide) (Nat.le_max_left (4 <<< 20) (len / 25000))

theorem div_le_of_le_mul_add (x b k c : Nat) (hb : 0 < b) (hc : c < b)
    (hx : x ≤ b * k + c) : x / b ≤ k := by
  calc x / b ≤ (b * k + c) / b := Nat.div_le_div_right hx
    _ = k + c / b := Nat.mul_add_div hb k c
    _ = k := by rw [Nat.div_eq_of_lt hc, Nat.add_zero]

theorem numBlocks_eq_ceil (len : Nat) :
    numBlocks len = (len + blockSize len - 1) / blockSize len := by
  have hb : 0 < blockSize len := blockSize_pos len
  have hmod := Nat.div_add_mod len (blockSize len)
  have hrlt : len % blockSize len < blockSize len := Nat.mod_lt len hb
  unfold numBlocks
  by_cases hr : len % blockSize len = 0
  · rw [if_neg (not_not_intro hr)]
    have h1 : len + blockSize len - 1
        = blockSize len * (len / blockSize len) + (blockSize len - 1) := by omega
    rw [h1, Nat.mul_add_div hb,
      Nat.div_eq_of_lt (show blockSize len - 1 < blockSize len by omega)]
  · rw [if_pos hr]
    have hexp : blockSize len * (len / blockSize len + 1)
        = blockSize len * (len / blockSize len) + blockSize len := by ring
    have h1 : len + blockSize len - 1
        = blockSize len * (len / blockSize len + 1) + (len % blockSize len - 1) := by
      rw [hexp]
      omega
    rw [h1, Nat.mul_add_div hb,
      Nat.div_eq_of_lt (show len % blockSize len - 1 < blockSize len by omega)]

theorem numBlocks_le_50000 (len : Nat) : numBlocks len ≤ 50000 := by
  have hb : 0 < blockSize len := blockSize_pos len
  have hM : (24999 : Nat) < blockSize len :=
    Nat.lt_of_lt_of_le (by decide) (Nat.le_max_left (4 <<< 20) (len / 25000))
  have hq : len / 25000 ≤ blockSize len := Nat.le_max_right _ _
  have hlen : len ≤ 25001 * blockSize len := by
    have h2 : 25000 * (len / 25000) ≤ 25000 * blockSize len :=
      Nat.mul_le_mul_left 25000 hq
    calc len ≤ 25000 * (len / 25000) + 24999 := by omega
      _ ≤ 25000 * blockSize len + 24999 := by omega
      _ ≤ 25000 * blockSize len + blockSize len := by omega
      _ = 25001 * blockSize len := by ring
  rw [numBlocks_eq_ceil]
  have hle : (len + blockSize len - 1) / blockSize len ≤ 25001 :=
    div_le_of_le_mul_add (len + blockSize len - 1) (blockSize len) 25001
      (blockSize len - 1) hb (by omega) (by omega)
  exact Nat.le_trans hle (by norm_num)

/-- C6 (counterexample): the claim computes the block size with a
ceiling division, but the code divides with floor: at
`len = 104857600001` (= 25000·4MiB + 1) the code chooses block size
`4194304` while `max(4 MiB, ceil(len / 25000)) = 4194305`. -/
theorem blockSize_not_ceil :
    blockSize 104857600001 = 4194304 ∧
    max (4 <<< 20) ((104857600001 + 25000 - 1) / 25000) = 4194305 ∧
    blockSize 104857600001 ≠ max (4 <<< 20) ((104857600001 + 25000 - 1) / 25000) := by
  decide

/-- C6 (amended): the chosen block size is
`max(4 MiB, floor(len / 25000))` (floor, not ceiling, division); the
number of uploaded blocks is `ceil(len / block_size)`; a file of
exactly `block_size` bytes produces exactly one block; and no file
ever needs more than 50000 blocks. -/
theorem blockSize_and_numBlocks (len : Nat) :
    blockSize len = max (4 <<< 20) (len / 25000) ∧
    numBlocks len = (len + blockSize len - 1) / blockSize len ∧
    (len = blockSize len → numBlocks len = 1) ∧
    numBlocks len ≤ 50000 := by
  refine ⟨rfl, numBlocks_eq_ceil len, ?_, numBlocks_le_50000 len⟩
  intro hfit
  have hb : 0 < blockSize len := blockSize_pos len
  unfold numBlocks
  rw [← hfit, Nat.div_self (by omega), Nat.mod_self]
  simp

/-- Witness for `blockSize_and_numBlocks` at `len = 4194304` (the
4 MiB floor — the exact-fit block size). -/
theorem blockSize_and_numBlocks_witness :
    numBlocks 4194304 = 1 ∧ numBlocks 4194304 ≤ 50000 :=
  ⟨(blockSize_and_numBlocks 4194304).2.2.1 (by decide),
    (blockSize_and_numBlocks 4194304).2.2.2⟩

/-! ### Remote indexer lemmas -/

theorem rfindChar_cons (c x : Char) (xs : List Char) :
    rfindChar c (x :: xs) = match rfindChar c xs with
      | some i => some (i + 1)
      | none => if x = c then some 0 else none := rfl

theorem rfindChar_not_mem (c : Char) : ∀ xs : List Char, c ∉ xs → rfindChar c xs = none := by
  intro xs
  induction xs with
  | nil => intro _; rfl
  | cons x rest ih =>
    intro h
    have hx : x ≠ c := fun hc => h (hc ▸ List.mem_cons_self x rest)
    have hrest : c ∉ rest := fun hm => h (List.mem_cons_of_mem x hm)
    rw [rfindChar_cons, ih hrest]
    simp [hx]

theorem rfindChar_last (c : Char) :
    ∀ zs ys : List Char, c ∉ ys → rfindChar c (zs ++ c :: ys) = some zs.length := by
  intro zs
  induction zs with
  | nil =>
    intro ys h
    rw [List.nil_append, rfindChar_cons, rfindChar_not_mem c ys h]
    simp
  | cons z zs ih =>
    intro ys h
    rw [List.cons_append, rfindChar_cons, ih ys h]
    simp

theorem processBlobName_eq (name : List Char) :
    processBlobName name =
      match rfindChar '/' ('/' :: name) with
      | none => Except.error RemoteIndexError.noDelimiter
      | some last_delim =>
        if last_delim + 1 ≥ ('/' :: name).length then
          Except.error RemoteIndexError.trailingSlash
        else
          match Version.tryFromChars (('/' :: name).drop (last_delim + 1)) with
          | none => Except.error RemoteIndexError.badVersion
          | some version => Except.ok (('/' :: name).take last_delim, version) := rfl

/-- C7 (counterexample): a blob name containing no `/` at all whose
text happens to parse as a version string does not make the remote
indexing fail — the prepended `/` serves as the delimiter and the
version is filed under the empty logical path. -/
theorem remote_name_no_slash_ok :
    ('/' ∉ ("0-0-0-0-Regular-0-0".toList)) ∧
    processBlobName ("0-0-0-0-Regular-0-0".toList) =
      Except.ok ([], ⟨0, 0, 0, 0, .Regular, 0, 0⟩) := by
  decide

/-- C7 (amended): the version delimiter is the last `/` of the name
with `/` prepended.  A name ending in `/` always fails with the
trailing-slash error.  A non-empty name with no `/` at all fails only
when its text does not parse as a version; when it does parse, it is
indexed under the empty logical path.  For a name `xs ++ '/' :: ys`
with `/`-free non-empty suffix `ys`, the suffix is parsed as the
version and the prefix `'/' :: xs` is the logical path. -/
theorem remote_name_parsing :
    (∀ name : List Char, name ≠ [] → '/' ∉ name →
      processBlobName name = (match Version.tryFromChars name with
        | none => Except.error RemoteIndexError.badVersion
        | some v => Except.ok ([], v))) ∧
    (∀ zs : List Char,
      processBlobName (zs ++ ['/']) = Except.error RemoteIndexError.trailingSlash) ∧
    (∀ xs ys : List Char, ys ≠ [] → '/' ∉ ys →
      processBlobName (xs ++ '/' :: ys) = (match Version.tryFromChars ys with
        | none => Except.error RemoteIndexError.badVersion
        | some v => Except.ok ('/' :: xs, v))) := by
  refine ⟨?_, ?_, ?_⟩
  · intro name hne hnm
    have h0 : rfindChar '/' ('/' :: name) = some 0 := by
      rw [rfindChar_cons, rfindChar_not_mem '/' name hnm]
      simp
    have hred : processBlobName name =
        if 0 + 1 ≥ ('/' :: name).length then Except.error RemoteIndexError.trailingSlash
        else match Version.tryFromChars (('/' :: name).drop (0 + 1)) with
          | none => Except.error RemoteIndexError.badVersion
          | some version => Except.ok (('/' :: name).take 0, version) := by
      rw [processBlobName_eq, h0]
    have hlen : ¬(0 + 1 ≥ ('/' :: name).length) := by
      rw [List.length_cons]
      have : 0 < name.length := List.length_pos.mpr hne
      omega
    rw [hred, if_neg hlen]
    rfl
  · intro zs
    have h1 : rfindChar '/' ('/' :: (zs ++ ['/'])) = some (('/' :: zs).length) :=
      rfindChar_last '/' ('/' :: zs) [] (by simp)
    have hred : processBlobName (zs ++ ['/']) =
        if ('/' :: zs).length + 1 ≥ ('/' :: (zs ++ ['/'])).length then
          Except.error RemoteIndexError.trailingSlash
        else match Version.tryFromChars (('/' :: (zs ++ ['/'])).drop (('/' :: zs).length + 1)) with
          | none => Except.error RemoteIndexError.badVersion
          | some version =>
            Except.ok (('/' :: (zs ++ ['/'])).take (('/' :: zs).length), version) := by
      rw [processBlobName_eq, h1]
    rw [hred, if_pos (by simp)]
  · intro xs ys hne hnm
    have h1 : rfindChar '/' ('/' :: (xs ++ '/' :: ys)) = some (('/' :: xs).length) :=
      rfindChar_last '/' ('/' :: xs) ys hnm
    have hred : processBlobName (xs ++ '/' :: ys) =
        if ('/' :: xs).length + 1 ≥ ('/' :: (xs ++ '/' :: ys)).length then
          Except.error RemoteIndexError.trailingSlash
        else match Version.tryFromChars
            (('/' :: (xs ++ '/' :: ys)).drop (('/' :: xs).length + 1)) with
          | none => Except.error RemoteIndexError.badVersion
          | some version =>
            Except.ok (('/' :: (xs ++ '/' :: ys)).take (('/' :: xs).length), version) := by
      rw [processBlobName_eq, h1]
    have hlen : ¬(('/' :: xs).length + 1 ≥ ('/' :: (xs ++ '/' :: ys)).length) := by
      simp only [List.length_cons, List.length_append]
      have : 0 < ys.length := List.length_pos.mpr hne
      omega
    have hdrop : ('/' :: (xs ++ '/' :: ys)).drop (('/' :: xs).length + 1) = ys := by
      have h2 : ('/' :: (xs ++ '/' :: ys)) = (('/' :: xs) ++ ['/']) ++ ys := by simp
      have h3 : ('/' :: xs).length + 1 = (('/' :: xs) ++ ['/']).length := by simp
      rw [h2, h3, List.drop_left]
    have htake : ('/' :: (xs ++ '/' :: ys)).take (('/' :: xs).length) = '/' :: xs := by
      have h2 : ('/' :: (xs ++ '/' :: ys)) = ('/' :: xs) ++ ('/' :: ys) := by simp
      rw [h2, List.take_left]
    rw [hred, if_neg hlen, hdrop, htake]

/-- Witness for `remote_name_parsing` at concrete names. -/
theorem remote_name_parsing_witness :
    processBlobName ("abc".toList) = Except.error RemoteIndexError.badVersion ∧
    processBlobName ("a".toList ++ ['/']) = Except.error RemoteIndexError.trailingSlash ∧
    processBlobName ("a".toList ++ '/' :: ("1-2-3-4-Folder-5-6".toList)) =
      Except.ok ('/' :: "a".toList, ⟨1, 2, 3, 4, .Folder, 5, 6⟩) := by
  refine ⟨?_, remote_name_parsing.2.1 ("a".toList), ?_⟩
  · have h := remote_name_parsing.1 ("abc".toList) (by decide) (by decide)
    rw [h]
    decide
  · have h := remote_name_parsing.2.2 ("a".toList) ("1-2-3-4-Folder-5-6".toList)
      (by decide) (by decide)
    rw [h]
    decide

/-! ### Retention-phase lemmas -/

theorem decFlag_imp_inBucket (now : Nat) (vs : List Version) (b : VersionBucket) (j : Nat)
    (h : decFlag now vs b j = true) : inBucket now vs b j = true := by
  unfold decFlag at h
  rw [Bool.and_eq_true, Bool.and_eq_true] at h
  have hmem : j ∈ bucketVersions now vs b := by
    have hc := h.1.2
    simpa using hc
  unfold bucketVersions at hmem
  rw [List.mem_filter] at hmem
  exact hmem.2

theorem decCount_le_initCount (now : Nat) (buckets : List VersionBucket)
    (vs : List Version) (j : Nat) :
    decCount now buckets vs j ≤ initCount now buckets vs j := by
  unfold decCount initCount
  exact List.countP_mono_left (fun b _ h => decFlag_imp_inBucket now vs b j h)

theorem mem_of_short (ms : List Nat) (j : Nat) (hlen : ¬1 < ms.length) (hj : j ∈ ms) :
    ms = [j] := by
  match ms with
  | [] => cases hj
  | [x] =>
    rw [List.mem_singleton] at hj
    rw [hj]
  | x :: y :: t => exact absurd (by simp) hlen

theorem spared_of_inBucket_not_dec (now : Nat) (vs : List Version) (b : VersionBucket)
    (j : Nat) (hj : j < vs.length) (hin : inBucket now vs b j = true)
    (hnd : decFlag now vs b j = false) : sparedOf now vs b = some j := by
  have hmem : j ∈ bucketVersions now vs b := by
    unfold bucketVersions
    rw [List.mem_filter, List.mem_range]
    exact ⟨hj, hin⟩
  have hcont : (bucketVersions now vs b).contains j = true := by simpa using hmem
  unfold sparedOf
  by_cases hlen : 1 < (bucketVersions now vs b).length
  · rw [if_pos hlen]
    have hj_old : j = findOldestIdx vs (bucketVersions now vs b) := by
      by_contra hne
      have hdf : decFlag now vs b j = true := by
        unfold decFlag
        rw [Bool.and_eq_true, Bool.and_eq_true]
        exact ⟨⟨decide_eq_true hlen, hcont⟩, decide_eq_true hne⟩
      rw [hdf] at hnd
      cases hnd
    rw [← hj_old, if_pos hcont]
  · rw [if_neg hlen]
    rw [mem_of_short _ j hlen hmem]
    rfl

theorem survivor_has_sparing_bucket (now : Nat) (buckets : List VersionBucket)
    (vs : List Version) (j : Nat) (hj : j < vs.length)
    (hfc : finalCount now buckets vs j ≠ 0) :
    ∃ b ∈ buckets, sparedOf now vs b = some j := by
  by_contra hno
  push_neg at hno
  have hmono : initCount now buckets vs j ≤ decCount now buckets vs j := by
    unfold initCount decCount
    refine List.countP_mono_left (fun b hb hin => ?_)
    cases hdf : decFlag now vs b j with
    | true => rfl
    | false => exact absurd (spared_of_inBucket_not_dec now vs b j hj hin hdf) (hno b hb)
  unfold finalCount at hfc
  omega

theorem survivorIdxs_length_le (now : Nat) (buckets : List VersionBucket)
    (vs : List Version) :
    (survivorIdxs now buckets vs).length ≤ buckets.length := by
  have hsub : ∀ j ∈ survivorIdxs now buckets vs, j ∈ buckets.filterMap (sparedOf now vs) := by
    intro j hj
    unfold survivorIdxs at hj
    rw [List.mem_filter, List.mem_range] at hj
    obtain ⟨hjr, hfc⟩ := hj
    obtain ⟨b, hb, hsp⟩ := survivor_has_sparing_bucket now buckets vs j hjr
      (of_decide_eq_true hfc)
    exact List.mem_filterMap.mpr ⟨b, hb, hsp⟩
  have hnd : (survivorIdxs now buckets vs).Nodup :=
    List.Nodup.filter _ (List.nodup_range _)
  calc (survivorIdxs now buckets vs).length
      = (survivorIdxs now buckets vs).toFinset.card := (List.toFinset_card_of_nodup hnd).symm
    _ ≤ (buckets.filterMap (sparedOf now vs)).toFinset.card := by
        apply Finset.card_le_card
        intro x hx
        rw [List.mem_toFinset] at hx ⊢
        exact hsub x hx
    _ ≤ (buckets.filterMap (sparedOf now vs)).length := List.toFinset_card_le _
    _ ≤ buckets.length := List.length_filterMap_le _ _

theorem mkBuckets_length (now num_daily num_weekly num_monthly : Nat) :
    (mkBuckets now num_daily num_weekly num_monthly).length
      = num_daily + num_weekly + num_monthly := by
  simp [mkBuckets]
  omega

/-- C10: for every bucket configuration and every version list, the
eviction loop decrements each version's `bucket_count` at most once
per bucket containing it, and the bucketing loop previously
incremented it exactly once per such bucket, so the total decrement
count never exceeds the total increment count and the `usize`
subtraction `bucket_count -= 1` never underflows: the final `Nat`
count equals the exact integer difference. -/
theorem bucket_count_never_underflows (now : Nat) (buckets : List VersionBucket)
    (vs : List Version) (j : Nat) :
    decCount now buckets vs j ≤ initCount now buckets vs j ∧
    (finalCount now buckets vs j : Int)
      = (initCount now buckets vs j : Int) - (decCount now buckets vs j : Int) := by
  have h := decCount_le_initCount now buckets vs j
  refine ⟨h, ?_⟩
  unfold finalCount
  omega

/-- C4: after the retention phase, for any remote path at most
`num_daily + num_weekly + num_monthly` versions survive (are not
deleted from the remote store), and every surviving version has a
strictly positive final keep count. -/
theorem retention_survivor_bound (now num_daily num_weekly num_monthly : Nat)
    (versions : List Version) :
    (retentionSurvivors now (mkBuckets now num_daily num_weekly num_monthly) versions).length
      ≤ num_daily + num_weekly + num_monthly ∧
    ∀ j ∈ retentionSurvivors now (mkBuckets now num_daily num_weekly num_monthly) versions,
      0 < finalCount now (mkBuckets now num_daily num_weekly num_monthly)
        (sortByUploadTime versions) j := by
  constructor
  · rw [← mkBuckets_length now num_daily num_weekly num_monthly]
    exact survivorIdxs_length_le now _ (sortByUploadTime versions)
  · intro j hj
    unfold retentionSurvivors survivorIdxs at hj
    rw [List.mem_filter] at hj
    exact Nat.pos_of_ne_zero (of_decide_eq_true hj.2)

/-! ### Codec claim theorems -/

/-- C5 (counterexample): the parser accepts the non-canonical string
`"00-0-0-0-Regular-0-0"` (leading zero in `mod_time`), but serializing
the parse result yields `"0-0-0-0-Regular-0-0"`, a different string —
so serialize ∘ parse is not the identity on every accepted string. -/
theorem codec_accepts_noncanonical :
    Version.tryFromChars ("00-0-0-0-Regular-0-0".toList) =
      some ⟨0, 0, 0, 0, .Regular, 0, 0⟩ ∧
    (Version.tryFromChars ("00-0-0-0-Regular-0-0".toList)).map Version.serialize =
      some ("0-0-0-0-Regular-0-0".toList) ∧
    ("0-0-0-0-Regular-0-0".toList) ≠ ("00-0-0-0-Regular-0-0".toList) := by
  decide

/-- C5 (amended): for every version whose fields fit their machine
widths (`u64`/`u32`), parsing the serialization yields exactly the
version, all seven fields included; and serializing the parse of any
string in the image of `serialize` reproduces the string character for
character.  (The original second half fails for accepted non-canonical
strings, e.g. with leading zeros or a `+` sign.) -/
theorem codec_roundtrip (v : Version)
    (h1 : v.mod_time < 2 ^ 64) (h2 : v.upload_time < 2 ^ 64)
    (h3 : v.permissions < 2 ^ 32) (h4 : v.size < 2 ^ 64)
    (h5 : v.owner < 2 ^ 32) (h6 : v.group < 2 ^ 32) :
    Version.tryFromChars (Version.serialize v) = some v ∧
    (Version.tryFromChars (Version.serialize v)).map Version.serialize =
      some (Version.serialize v) := by
  have h := tryFromChars_serialize v h1 h2 h3 h4 h5 h6
  exact ⟨h, by rw [h, Option.map_some']⟩

/-- Witness for `codec_roundtrip` at a concrete version. -/
theorem codec_roundtrip_witness :
    Version.tryFromChars (Version.serialize ⟨123, 456, 493, 10, .Symlink, 1000, 100⟩) =
      some ⟨123, 456, 493, 10, .Symlink, 1000, 100⟩ ∧
    (Version.tryFromChars (Version.serialize ⟨123, 456, 493, 10, .Symlink, 1000, 100⟩)).map
        Version.serialize =
      some (Version.serialize ⟨123, 456, 493, 10, .Symlink, 1000, 100⟩) :=
  codec_roundtrip ⟨123, 456, 493, 10, .Symlink, 1000, 100⟩ (by decide) (by decide)
    (by decide) (by decide) (by decide) (by decide)

/-! ### Retention claim theorems on concrete inputs -/

/-- C1 (failing input): at `now = 864000` with `num_daily = 1`,
`num_weekly = num_monthly = 0` and one path with versions uploaded at
times 100, 820800 and 863900, the single daily bucket
`[777600, 864000]` contains exactly the two versions with indices 1
and 2 (upload times 820800 and 863900).  The claim (and the source's
own comment "delete all but the oldest") requires the bucket member
with minimum upload time — 820800 — to keep its count and survive;
but the eviction loop compares version indices with the position
`oldest_idx` (always 0 after sorting), decrements both members, and
every version of the path is deleted, the bucket-oldest included. -/
theorem retention_oldest_rule_bug :
    mkBuckets 864000 1 0 0 = [⟨777600, 864000⟩] ∧
    bucketVersions 864000
      (sortByUploadTime [⟨0, 100, 420, 10, .Regular, 1000, 1000⟩,
        ⟨0, 820800, 420, 10, .Regular, 1000, 1000⟩,
        ⟨0, 863900, 420, 10, .Regular, 1000, 1000⟩])
      ⟨777600, 864000⟩ = [1, 2] ∧
    finalCount 864000 (mkBuckets 864000 1 0 0)
      (sortByUploadTime [⟨0, 100, 420, 10, .Regular, 1000, 1000⟩,
        ⟨0, 820800, 420, 10, .Regular, 1000, 1000⟩,
        ⟨0, 863900, 420, 10, .Regular, 1000, 1000⟩]) 1 = 0 ∧
    retentionSurvivors 864000 (mkBuckets 864000 1 0 0)
      [⟨0, 100, 420, 10, .Regular, 1000, 1000⟩,
        ⟨0, 820800, 420, 10, .Regular, 1000, 1000⟩,
        ⟨0, 863900, 420, 10, .Regular, 1000, 1000⟩] = [] := by
  decide

/-- C9 (counterexample): with one daily bucket at `now = 864000` and
versions at upload times 50000 and 100000, version 0's coverage
interval `[50000, 56800)` misses the bucket, so its final keep count
is zero and it is deleted from the remote store — yet the in-memory
sequence after the phase still contains it: the loop never removes
versions from the in-memory index, so the sequence does not consist of
the survivors only.  (All raw coverage ends here — 100000 for
version 0, 864000 for version 1 — are at least `day / 2 = 43200`, so
the source's `u64` subtraction `end -= day / 2` does not underflow and
the model computes exactly what the code does.) -/
theorem retention_keeps_memory_sequence :
    finalCount 864000 (mkBuckets 864000 1 0 0)
      (sortByUploadTime [⟨0, 50000, 420, 10, .Regular, 1000, 1000⟩,
        ⟨0, 100000, 420, 10, .Regular, 1000, 1000⟩]) 0 = 0 ∧
    (retentionEntry 864000 (mkBuckets 864000 1 0 0)
      [⟨0, 50000, 420, 10, .Regular, 1000, 1000⟩,
        ⟨0, 100000, 420, 10, .Regular, 1000, 1000⟩]).2 =
      [⟨0, 50000, 420, 10, .Regular, 1000, 1000⟩] ∧
    (retentionEntry 864000 (mkBuckets 864000 1 0 0)
      [⟨0, 50000, 420, 10, .Regular, 1000, 1000⟩,
        ⟨0, 100000, 420, 10, .Regular, 1000, 1000⟩]).1 =
      [⟨0, 50000, 420, 10, .Regular, 1000, 1000⟩,
        ⟨0, 100000, 420, 10, .Regular, 1000, 1000⟩] := by
  decide

/-- C9 (amended): every version whose final keep count is zero is
deleted from the remote store, but the in-memory version sequence is
only sorted, never pruned: after the phase it is a permutation of the
original sequence, remotely deleted versions included. -/
theorem retention_remote_delete_only (now : Nat) (buckets : List VersionBucket)
    (versions : List Version) :
    (retentionEntry now buckets versions).2 =
      ((deletedIdxs now buckets (sortByUploadTime versions)).map
        (fun i => (sortByUploadTime versions).getD i default)) ∧
    (∀ j ∈ deletedIdxs now buckets (sortByUploadTime versions),
      finalCount now buckets (sortByUploadTime versions) j = 0) ∧
    (retentionEntry now buckets versions).1.Perm versions := by
  refine ⟨rfl, ?_, ?_⟩
  · intro j hj
    unfold deletedIdxs at hj
    rw [List.mem_filter] at hj
    exact of_decide_eq_true hj.2
  · exact List.perm_insertionSort _ versions

end AzureBlobBackup
